import Mathlib

/-!
Verification development for the open-gateway reverse proxy.

Strings from the Rust sources are modelled as lists of characters
(`Str := List Char`); the helper functions below reproduce the exact
semantics of the Rust standard-library operations that the gateway code
uses (`split`, `split_once`, `strip_prefix`, `trim_end_matches`,
`starts_with`, `ends_with`, `eq_ignore_ascii_case`).
-/

abbrev Str := List Char

/-- Rust `str::split(c)`: splitting the empty string yields one empty piece. -/
def splitOnChar (c : Char) : Str → List Str
  | [] => [[]]
  | x :: xs =>
    let r := splitOnChar c xs
    if x = c then [] :: r
    else
      match r with
      | [] => [[x]]
      | s :: rest => (x :: s) :: rest

/-- Rust `Vec::join(c)` / `intercalate` with a one-character separator. -/
def joinSep (c : Char) : List Str → Str
  | [] => []
  | [s] => s
  | s :: rest => s ++ c :: joinSep c rest

/-- Rust `str::split_once(c)`: split at the first occurrence of `c`. -/
def splitOnceChar (c : Char) : Str → Option (Str × Str)
  | [] => none
  | x :: xs =>
    if x = c then some ([], xs)
    else (splitOnceChar c xs).map (fun p => (x :: p.1, p.2))

/-- Rust `str::strip_prefix`: remove a leading literal, or fail. -/
def stripPre : Str → Str → Option Str
  | [], s => some s
  | _ :: _, [] => none
  | a :: as2, b :: bs => if a = b then stripPre as2 bs else none

/-- Rust `str::trim_end_matches('/')`: drop every trailing slash. -/
def trimEndSlashes (s : Str) : Str :=
  (s.reverse.dropWhile (fun c => c = '/')).reverse

/-- ASCII lower-casing of one character (Rust `u8::to_ascii_lowercase`). -/
def asciiLowerChar (c : Char) : Char :=
  if 'A' ≤ c ∧ c ≤ 'Z' then Char.ofNat (c.toNat + 32) else c

/-- Rust `str::eq_ignore_ascii_case`, element by element. -/
def eqIgnoreAsciiCase : Str → Str → Bool
  | [], [] => true
  | a :: as2, b :: bs => (asciiLowerChar a = asciiLowerChar b) && eqIgnoreAsciiCase as2 bs
  | _, _ => false

theorem splitOnChar_ne_nil (c : Char) (s : Str) : splitOnChar c s ≠ [] := by
  cases s with
  | nil => simp [splitOnChar]
  | cons x xs =>
    simp only [splitOnChar]
    split
    · simp
    · cases h : splitOnChar c xs <;> simp

theorem mem_splitOnChar_not_mem (c : Char) (s : Str) :
    ∀ p ∈ splitOnChar c s, c ∉ p := by
  induction s with
  | nil =>
    intro p hp
    simp [splitOnChar] at hp
    simp [hp]
  | cons x xs ih =>
    intro p hp
    by_cases hx : x = c
    · simp only [splitOnChar, if_pos hx] at hp
      rcases List.mem_cons.mp hp with h | h
      · simp [h]
      · exact ih p h
    · simp only [splitOnChar, if_neg hx] at hp
      cases hr : splitOnChar c xs with
      | nil => exact absurd hr (splitOnChar_ne_nil c xs)
      | cons s0 rest =>
        rw [hr] at hp
        rcases List.mem_cons.mp hp with h | h
        · subst h
          intro hmem
          rcases List.mem_cons.mp hmem with h1 | h1
          · exact hx h1.symm
          · exact ih s0 (by rw [hr]; exact List.mem_cons_self s0 rest) h1
        · exact ih p (by rw [hr]; exact List.mem_cons_of_mem s0 h)

theorem splitOnChar_append_sep (c : Char) (s t : Str) (hs : c ∉ s) :
    splitOnChar c (s ++ c :: t) = s :: splitOnChar c t := by
  induction s with
  | nil => simp [splitOnChar]
  | cons x xs ih =>
    have hx : x ≠ c := fun h => hs (h ▸ List.mem_cons_self x xs)
    have hxs : c ∉ xs := fun h => hs (List.mem_cons_of_mem x h)
    simp only [List.cons_append, splitOnChar, if_neg hx, List.append_eq]
    rw [ih hxs]

theorem splitOnChar_of_not_mem (c : Char) (s : Str) (hs : c ∉ s) :
    splitOnChar c s = [s] := by
  induction s with
  | nil => simp [splitOnChar]
  | cons x xs ih =>
    have hx : x ≠ c := fun h => hs (h ▸ List.mem_cons_self x xs)
    have hxs : c ∉ xs := fun h => hs (List.mem_cons_of_mem x h)
    simp only [splitOnChar, if_neg hx, ih hxs]

/-- Splitting undoes joining when no piece contains the separator. -/
theorem splitOnChar_joinSep (c : Char) (l : List Str) (hne : l ≠ [])
    (h : ∀ p ∈ l, c ∉ p) : splitOnChar c (joinSep c l) = l := by
  induction l with
  | nil => exact absurd rfl hne
  | cons s rest ih =>
    cases rest with
    | nil =>
      simp only [joinSep]
      exact splitOnChar_of_not_mem c s (h s (List.mem_cons_self s []))
    | cons t rest2 =>
      have hs : c ∉ s := h s (List.mem_cons_self s (t :: rest2))
      have hrest : ∀ p ∈ t :: rest2, c ∉ p := fun p hp => h p (List.mem_cons_of_mem s hp)
      simp only [joinSep, splitOnChar_append_sep c s _ hs]
      rw [ih (by simp) hrest]

/-!
Configuration data model, from `src/config/mod.rs`.
HashMaps are modelled as association lists with first-match lookup
(map keys are unique in the Rust sources). `strip_prefix` fields are
named `stripPfx` here. Error messages of `validate` are elided: the
function is modelled as the boolean accept/reject decision.
-/

/-- API key selection strategy (`ApiKeyStrategy`). -/
inductive ApiKeyStrategy where
  | roundRobin
  | random
  | weight
deriving DecidableEq

/-- One API key entry (`ApiKeyConfig`); the `name` field is the optional
label used by the selector module. -/
structure ApiKeyConfig where
  key : Str
  name : Option Str
  weight : Nat
  enabled : Bool
deriving DecidableEq

/-- An API key pool (`ApiKeyPool`). -/
structure ApiKeyPool where
  keys : List ApiKeyConfig
  strategy : ApiKeyStrategy
  header_name : Str
  query_param_name : Option Str
deriving DecidableEq

/-- One route entry of the configuration (`RouteConfig`). -/
structure RouteConfig where
  name : Option Str
  path : Str
  target : Str
  methods : List Str
  stripPfx : Bool
  api_key_pool : Option Str
  headers : List (Str × Str)
  description : Option Str
  enabled : Bool
deriving DecidableEq

/-- One listener (`ServerConfig`). -/
structure ServerConfig where
  name : Option Str
  host : Str
  port : Nat
  timeout : Nat
  routes : List Str
deriving DecidableEq

/-- Master access token guard configuration (`MasterAccessTokenConfig`). -/
structure MasterAccessTokenConfig where
  enabled : Bool
  header_name : Str
  tokens : List Str
deriving DecidableEq

/-- Root configuration (`GatewayConfig`); the metrics and health blocks
carry no data used by the claims and are omitted. -/
structure GatewayConfig where
  server : ServerConfig
  servers : List ServerConfig
  master_access_token : MasterAccessTokenConfig
  routes : List RouteConfig
  api_key_pools : List (Str × ApiKeyPool)
deriving DecidableEq

/-- Association list lookup, modelling `HashMap::get`. -/
def assocLookup {α : Type} (m : List (Str × α)) (k : Str) : Option α :=
  (m.find? (fun p => p.1 = k)).map (fun p => p.2)

/-- Rust `GatewayConfig::validate`, as the accept/reject decision.  The four
checks are performed exactly as in the source: pool references of routes,
at least one enabled key per pool, route references of servers, and the
master-token consistency check. -/
def GatewayConfig.validate (cfg : GatewayConfig) : Bool :=
  (cfg.routes.all (fun r =>
    match r.api_key_pool with
    | some pn => cfg.api_key_pools.any (fun p => p.1 = pn)
    | none => true)) &&
  (cfg.api_key_pools.all (fun p => !(p.2.keys.filter (fun k => k.enabled)).isEmpty)) &&
  (cfg.servers.all (fun s => s.routes.all (fun rref =>
    cfg.routes.any (fun r => r.name = some rref || r.path = rref)))) &&
  (!(cfg.master_access_token.enabled && cfg.master_access_token.tokens.isEmpty))

/-- Rust `GatewayConfig::get_servers`. -/
def GatewayConfig.get_servers (cfg : GatewayConfig) : List ServerConfig :=
  if !cfg.servers.isEmpty then cfg.servers else [cfg.server]

/-- Rust `GatewayConfig::server_addr_for`: the `"{host}:{port}"` string. -/
def serverAddrFor (s : ServerConfig) : Str :=
  s.host ++ ':' :: (Nat.repr s.port).toList

/-- Rust `MasterAccessTokenConfig::validate_token`. -/
def MasterAccessTokenConfig.validate_token
    (cfg : MasterAccessTokenConfig) (token : Str) : Bool :=
  if !cfg.enabled then true
  else if cfg.tokens.isEmpty then false
  else cfg.tokens.any (fun t => t = token)

/-!
API key selector, from `src/api_key/mod.rs`.  The atomic round-robin
counter is a `usize` with wrapping `fetch_add`; it is modelled as a `Nat`
reduced modulo `2 ^ 64`.  The random draws of the `random` and `weight`
strategies are external inputs and appear as an explicit `rand` argument.
-/

/-- The modulus of the wrapping `usize` counter. -/
def USIZE : Nat := 2 ^ 64

/-- Rust `ApiKeySelector` (the atomic counter is explicit state). -/
structure ApiKeySelector where
  keys : List ApiKeyConfig
  strategy : ApiKeyStrategy
  header_name : Str
  query_param_name : Option Str
  round_robin_index : Nat
  total_weight : Nat
deriving DecidableEq

/-- Rust `ApiKeySelector::new`: retain enabled keys, start the counter at 0. -/
def ApiKeySelector.new (pool : ApiKeyPool) : ApiKeySelector :=
  let keys := pool.keys.filter (fun k => k.enabled)
  { keys := keys
    strategy := pool.strategy
    header_name := pool.header_name
    query_param_name := pool.query_param_name
    round_robin_index := 0
    total_weight := (keys.map (fun k => k.weight)).sum }

/-- Rust `ApiKeySelector::get_round_robin_with_name`: `fetch_add(1)` returns
the old counter value; the index is the old value modulo the key count. -/
def getRoundRobinWithName (s : ApiKeySelector) :
    Option (Str × Option Str) × ApiKeySelector :=
  let index := s.round_robin_index % s.keys.length
  ((s.keys[index]?).map (fun kc => (kc.key, kc.name)),
   { s with round_robin_index := (s.round_robin_index + 1) % USIZE })

/-- Rust `ApiKeySelector::get_random_with_name`; `rand` stands for the
uniform draw over `[0, len)`. -/
def getRandomWithName (s : ApiKeySelector) (rand : Nat) :
    Option (Str × Option Str) :=
  (s.keys[rand % s.keys.length]?).map (fun kc => (kc.key, kc.name))

/-- Cumulative-weight walk of `get_weighted_with_name`. -/
def pickWeighted (rw : Nat) : Nat → List ApiKeyConfig → Option (Str × Option Str)
  | _, [] => none
  | cum, k :: ks =>
    if rw < cum + k.weight then some (k.key, k.name)
    else pickWeighted rw (cum + k.weight) ks

/-- Rust `ApiKeySelector::get_weighted_with_name`; `rand` stands for the
uniform draw over `[0, total_weight)` (or the random-fallback draw). -/
def getWeightedWithName (s : ApiKeySelector) (rand : Nat) :
    Option (Str × Option Str) :=
  if s.total_weight = 0 then getRandomWithName s rand
  else
    match pickWeighted (rand % s.total_weight) 0 s.keys with
    | some r => some r
    | none => (s.keys.getLast?).map (fun k => (k.key, k.name))

/-- Rust `ApiKeySelector::get_key_with_name`. -/
def getKeyWithName (s : ApiKeySelector) (rand : Nat) :
    Option (Str × Option Str) × ApiKeySelector :=
  if s.keys.isEmpty then (none, s)
  else
    match s.strategy with
    | ApiKeyStrategy.roundRobin => getRoundRobinWithName s
    | ApiKeyStrategy.random => (getRandomWithName s rand, s)
    | ApiKeyStrategy.weight => (getWeightedWithName s rand, s)

/-- Rust `ApiKeySelector::get_key`: drop the label. -/
def getKey (s : ApiKeySelector) (rand : Nat) : Option Str × ApiKeySelector :=
  let r := getKeyWithName s rand
  (r.1.map (fun p => p.1), r.2)

/-- The selector state after `n` successive `get_key` calls. -/
def selectorAfter (s : ApiKeySelector) : Nat → ApiKeySelector
  | 0 => s
  | n + 1 => (getKeyWithName (selectorAfter s n) 0).2

/-- The key returned by the `k`-th `get_key` call (`k` is 1-based). -/
def kthPickedKey (s : ApiKeySelector) (k : Nat) : Option Str :=
  ((getKeyWithName (selectorAfter s (k - 1)) 0).1).map (fun p => p.1)

theorem selectorAfter_roundRobin_state (s : ApiKeySelector)
    (hs : s.strategy = ApiKeyStrategy.roundRobin) (hk : s.keys ≠ [])
    (h0 : s.round_robin_index < USIZE) : ∀ n : Nat,
    (selectorAfter s n).keys = s.keys ∧
    (selectorAfter s n).strategy = s.strategy ∧
    (selectorAfter s n).round_robin_index = (s.round_robin_index + n) % USIZE := by
  intro n
  induction n with
  | zero =>
    refine ⟨rfl, rfl, ?_⟩
    simpa using (Nat.mod_eq_of_lt h0).symm
  | succ m ih =>
    obtain ⟨ihk, ihs, ihc⟩ := ih
    have hempty : ((selectorAfter s m).keys.isEmpty) = false := by
      rw [ihk]
      exact List.isEmpty_eq_false.mpr hk
    have hstrat : (selectorAfter s m).strategy = ApiKeyStrategy.roundRobin := ihs.trans hs
    have h1 : (1 : Nat) % USIZE = 1 := Nat.mod_eq_of_lt (by norm_num [USIZE])
    refine ⟨?_, ?_, ?_⟩ <;>
      simp only [selectorAfter, getKeyWithName, hempty, Bool.false_eq_true, if_false,
        hstrat, getRoundRobinWithName]
    · exact ihk
    · exact hs.symm
    · rw [ihc, ← h1, ← Nat.add_mod, h1, ← Nat.add_assoc]

theorem getRoundRobinWithName_key (s : ApiKeySelector) :
    (getRoundRobinWithName s).1.map (fun p => p.1) =
    (s.keys.map (fun kc => kc.key))[s.round_robin_index % s.keys.length]? := by
  simp only [getRoundRobinWithName, List.getElem?_map, Option.map_map]
  cases s.keys[s.round_robin_index % s.keys.length]? <;> rfl

/-- C7: for a freshly built selector over a pool with at least one enabled
key under the round-robin strategy, the counter starts at zero and the
k-th `get_key` call (1-based, for any k up to the wrap bound of the usize
counter) returns the enabled key at index `(k-1) mod N` in declaration
order among enabled keys. -/
theorem round_robin_kth_pick (pool : ApiKeyPool) (k : Nat)
    (hs : pool.strategy = ApiKeyStrategy.roundRobin)
    (hN : pool.keys.filter (fun kc => kc.enabled) ≠ [])
    (hk1 : 1 ≤ k) (hk2 : k ≤ USIZE) :
    (ApiKeySelector.new pool).round_robin_index = 0 ∧
    kthPickedKey (ApiKeySelector.new pool) k =
      ((pool.keys.filter (fun kc => kc.enabled)).map (fun kc => kc.key))[(k - 1) %
        (pool.keys.filter (fun kc => kc.enabled)).length]? := by
  have hkeys : (ApiKeySelector.new pool).keys = pool.keys.filter (fun kc => kc.enabled) := rfl
  have hstr : (ApiKeySelector.new pool).strategy = pool.strategy := rfl
  have h0 : (ApiKeySelector.new pool).round_robin_index = 0 := rfl
  refine ⟨h0, ?_⟩
  have hk' : (ApiKeySelector.new pool).keys ≠ [] := by rw [hkeys]; exact hN
  have hlt : (ApiKeySelector.new pool).round_robin_index < USIZE := by
    rw [h0]; norm_num [USIZE]
  obtain ⟨hk2', hs2', hc2'⟩ :=
    selectorAfter_roundRobin_state (ApiKeySelector.new pool) (hstr.trans hs) hk' hlt (k - 1)
  have hempty : ((selectorAfter (ApiKeySelector.new pool) (k - 1)).keys.isEmpty) = false := by
    rw [hk2', hkeys]
    exact List.isEmpty_eq_false.mpr hN
  have hcval : (selectorAfter (ApiKeySelector.new pool) (k - 1)).round_robin_index = k - 1 := by
    rw [hc2', h0, Nat.zero_add]
    exact Nat.mod_eq_of_lt (by omega)
  have hgkw : getKeyWithName (selectorAfter (ApiKeySelector.new pool) (k - 1)) 0
      = getRoundRobinWithName (selectorAfter (ApiKeySelector.new pool) (k - 1)) := by
    have hstrat2 : (selectorAfter (ApiKeySelector.new pool) (k - 1)).strategy
        = ApiKeyStrategy.roundRobin := hs2'.trans (hstr.trans hs)
    simp only [getKeyWithName, hempty, Bool.false_eq_true, if_false, hstrat2]
  unfold kthPickedKey
  rw [hgkw, getRoundRobinWithName_key, hcval, hk2', hkeys]

/-- Witness for C7: a pool with enabled keys `k1, k2`; four successive
picks return `k1, k2, k1, k2`. -/
theorem round_robin_kth_pick_witness :
    kthPickedKey (ApiKeySelector.new
      { keys := [{ key := ("k1".toList), name := none, weight := 1, enabled := true },
                 { key := ("k2".toList), name := none, weight := 1, enabled := true }],
        strategy := ApiKeyStrategy.roundRobin,
        header_name := ("X-K".toList), query_param_name := none }) 1 = some ("k1".toList) ∧
    kthPickedKey (ApiKeySelector.new
      { keys := [{ key := ("k1".toList), name := none, weight := 1, enabled := true },
                 { key := ("k2".toList), name := none, weight := 1, enabled := true }],
        strategy := ApiKeyStrategy.roundRobin,
        header_name := ("X-K".toList), query_param_name := none }) 2 = some ("k2".toList) ∧
    kthPickedKey (ApiKeySelector.new
      { keys := [{ key := ("k1".toList), name := none, weight := 1, enabled := true },
                 { key := ("k2".toList), name := none, weight := 1, enabled := true }],
        strategy := ApiKeyStrategy.roundRobin,
        header_name := ("X-K".toList), query_param_name := none }) 3 = some ("k1".toList) ∧
    kthPickedKey (ApiKeySelector.new
      { keys := [{ key := ("k1".toList), name := none, weight := 1, enabled := true },
                 { key := ("k2".toList), name := none, weight := 1, enabled := true }],
        strategy := ApiKeyStrategy.roundRobin,
        header_name := ("X-K".toList), query_param_name := none }) 4 = some ("k2".toList) :=
  ⟨(round_robin_kth_pick _ 1 rfl (by decide) (by decide)
      (by norm_num [USIZE])).2.trans (by decide),
   (round_robin_kth_pick _ 2 rfl (by decide) (by decide)
      (by norm_num [USIZE])).2.trans (by decide),
   (round_robin_kth_pick _ 3 rfl (by decide) (by decide)
      (by norm_num [USIZE])).2.trans (by decide),
   (round_robin_kth_pick _ 4 rfl (by decide) (by decide)
      (by norm_num [USIZE])).2.trans (by decide)⟩

/-!
Metrics path normalization, from `GatewayMetrics::normalize_path` in
`src/metrics/mod.rs`.
-/

/-- Rust `char::is_ascii_hexdigit`. -/
def isAsciiHexDigit (c : Char) : Bool :=
  c.isDigit || ('a' ≤ c && c ≤ 'f') || ('A' ≤ c && c ≤ 'F')

/-- The per-segment replacement of `normalize_path`: all-digit segments
become `:id`, hex segments of length at least 8 become `:uuid`. -/
def normalizeSegment (seg : Str) : Str :=
  if seg.all Char.isDigit && !seg.isEmpty then (":id".toList)
  else if seg.all isAsciiHexDigit && decide (8 ≤ seg.length) then (":uuid".toList)
  else seg

/-- Rust `GatewayMetrics::normalize_path`. -/
def normalize_path (p : Str) : Str :=
  joinSep '/' ((splitOnChar '/' p).map normalizeSegment)

theorem normalizeSegment_no_slash (seg : Str) (h : '/' ∉ seg) :
    '/' ∉ normalizeSegment seg := by
  unfold normalizeSegment
  split
  · decide
  · split
    · decide
    · exact h

theorem normalizeSegment_idem (seg : Str) :
    normalizeSegment (normalizeSegment seg) = normalizeSegment seg := by
  by_cases h1 : (seg.all Char.isDigit && !seg.isEmpty) = true
  · simp only [normalizeSegment, h1, if_true]
    decide
  · by_cases h2 : (seg.all isAsciiHexDigit && decide (8 ≤ seg.length)) = true
    · simp only [normalizeSegment, h1, h2, if_true, if_false, Bool.false_eq_true]
      decide
    · simp only [normalizeSegment, h1, h2, if_false, Bool.false_eq_true]

/-- C9: path normalization is idempotent. -/
theorem normalize_path_idem (p : Str) :
    normalize_path (normalize_path p) = normalize_path p := by
  unfold normalize_path
  have hne : (splitOnChar '/' p).map normalizeSegment ≠ [] := by
    intro h
    exact splitOnChar_ne_nil '/' p (List.map_eq_nil_iff.mp h)
  have hns : ∀ q ∈ (splitOnChar '/' p).map normalizeSegment, '/' ∉ q := by
    intro q hq
    obtain ⟨seg, hseg, rfl⟩ := List.mem_map.mp hq
    exact normalizeSegment_no_slash seg (mem_splitOnChar_not_mem '/' p seg hseg)
  rw [splitOnChar_joinSep '/' _ hne hns, List.map_map]
  congr 1
  apply List.map_congr_left
  intro seg _
  exact normalizeSegment_idem seg

/-!
Proxy routes, matching and URL rewriting, from `src/proxy/mod.rs`.
-/

/-- Rust `ProxyRoute` (the compiled route). -/
structure ProxyRoute where
  name : Option Str
  path_pattern : Str
  target : Str
  stripPfx : Bool
  methods : List Str
  api_key_selector : Option ApiKeySelector
  headers : List (Str × Str)
  description : Option Str
deriving DecidableEq

/-- Rust `pattern.ends_with("/*")`. -/
def endsWithSlashStar (p : Str) : Bool :=
  match p.reverse with
  | '*' :: '/' :: _ => true
  | _ => false

/-- Rust `pattern.ends_with('/')`. -/
def endsWithSlash (p : Str) : Bool :=
  match p.reverse with
  | '/' :: _ => true
  | _ => false

/-- Rust `ProxyRoute::path_matches`. -/
def path_matches (r : ProxyRoute) (path : Str) : Bool :=
  if endsWithSlashStar r.path_pattern then
    let pre := r.path_pattern.take (r.path_pattern.length - 2)
    decide (path = pre) || (pre ++ ['/']).isPrefixOf path
  else if endsWithSlash r.path_pattern then
    let base := r.path_pattern.take (r.path_pattern.length - 1)
    decide (path = base) || decide (path = r.path_pattern) ||
      r.path_pattern.isPrefixOf path
  else
    decide (path = r.path_pattern) || (r.path_pattern ++ ['/']).isPrefixOf path

/-- Rust `ProxyRoute::matches` (method filter, then pattern). -/
def ProxyRoute.matches (r : ProxyRoute) (path method : Str) : Bool :=
  if !r.methods.isEmpty && !(r.methods.any (fun m => eqIgnoreAsciiCase m method)) then
    false
  else
    path_matches r path

/-- The route resolution of `ProxyService::forward`: the first route in
definition order that matches. -/
def findMatchingRoute (routes : List ProxyRoute) (path method : Str) :
    Option ProxyRoute :=
  routes.find? (fun r => ProxyRoute.matches r path method)

/-- Rust `ProxyRoute::strip_path_prefix`. -/
def stripPathPfx (r : ProxyRoute) (path : Str) : Str :=
  if endsWithSlashStar r.path_pattern then
    match stripPre (r.path_pattern.take (r.path_pattern.length - 2)) path with
    | some rem => if rem = [] ∨ rem = ['/'] then ['/'] else rem
    | none => path
  else if endsWithSlash r.path_pattern then
    match stripPre (r.path_pattern.take (r.path_pattern.length - 1)) path with
    | some rem => if rem = [] then ['/'] else rem
    | none => path
  else path

/-- Rust `ProxyRoute::get_target_url`. -/
def get_target_url (r : ProxyRoute) (path : Str) (query : Option Str) : Str :=
  let target_path := if r.stripPfx then stripPathPfx r path else path
  let base := trimEndSlashes r.target
  let path_part :=
    match target_path with
    | '/' :: _ => target_path
    | _ => '/' :: target_path
  match query with
  | some q => if !q.isEmpty then base ++ path_part ++ '?' :: q else base ++ path_part
  | none => base ++ path_part

theorem eqIgnoreAsciiCase_iff (a b : Str) :
    eqIgnoreAsciiCase a b = true ↔ a.map asciiLowerChar = b.map asciiLowerChar := by
  induction a generalizing b with
  | nil => cases b <;> simp [eqIgnoreAsciiCase]
  | cons x xs ih =>
    cases b with
    | nil => simp [eqIgnoreAsciiCase]
    | cons y ys => simp [eqIgnoreAsciiCase, ih]

theorem find?_eq_some_first {α : Type} (p : α → Bool) (l : List α) (x : α) :
    l.find? p = some x ↔
      ∃ l1 l2, l = l1 ++ x :: l2 ∧ p x = true ∧ ∀ y ∈ l1, p y = false := by
  induction l with
  | nil => simp
  | cons a as2 ih =>
    cases hpa : p a with
    | true =>
      rw [List.find?_cons_of_pos _ hpa]
      constructor
      · intro h
        injection h with h
        subst h
        exact ⟨[], as2, rfl, hpa, by simp⟩
      · rintro ⟨l1, l2, heq, hpx, hall⟩
        cases l1 with
        | nil =>
          simp only [List.nil_append, List.cons.injEq] at heq
          rw [heq.1]
        | cons b l1' =>
          simp only [List.cons_append, List.cons.injEq] at heq
          have hfalse := hall b (List.mem_cons_self b l1')
          rw [← heq.1] at hfalse
          rw [hpa] at hfalse
          exact absurd hfalse (by simp)
    | false =>
      rw [List.find?_cons_of_neg _ (by simp [hpa])]
      rw [ih]
      constructor
      · rintro ⟨l1, l2, heq, hpx, hall⟩
        refine ⟨a :: l1, l2, by rw [heq]; rfl, hpx, ?_⟩
        intro y hy
        rcases List.mem_cons.mp hy with h | h
        · rw [h]; exact hpa
        · exact hall y h
      · rintro ⟨l1, l2, heq, hpx, hall⟩
        cases l1 with
        | nil =>
          simp only [List.nil_append, List.cons.injEq] at heq
          rw [heq.1] at hpa
          rw [hpx] at hpa
          exact absurd hpa (by simp)
        | cons b l1' =>
          simp only [List.cons_append, List.cons.injEq] at heq
          exact ⟨l1', l2, heq.2, hpx, fun y hy => hall y (List.mem_cons_of_mem b hy)⟩

/-- The method part of matching, in the words of the specification. -/
def specMethodOk (methods : List Str) (method : Str) : Prop :=
  methods = [] ∨ ∃ m ∈ methods, m.map asciiLowerChar = method.map asciiLowerChar

/-- The pattern part of matching, in the words of the specification. -/
def specPatternMatches (pattern path : Str) : Prop :=
  if endsWithSlashStar pattern then
    path = pattern.take (pattern.length - 2) ∨
      (pattern.take (pattern.length - 2) ++ ['/']) <+: path
  else if endsWithSlash pattern then
    path = pattern.take (pattern.length - 1) ∨ path = pattern ∨ pattern <+: path
  else
    path = pattern ∨ (pattern ++ ['/']) <+: path

theorem path_matches_iff (r : ProxyRoute) (path : Str) :
    path_matches r path = true ↔ specPatternMatches r.path_pattern path := by
  unfold path_matches specPatternMatches
  by_cases h1 : endsWithSlashStar r.path_pattern = true
  · simp [h1, List.isPrefixOf_iff_prefix]
  · by_cases h2 : endsWithSlash r.path_pattern = true
    · simp [h1, h2, List.isPrefixOf_iff_prefix, or_assoc]
    · simp [h1, h2, List.isPrefixOf_iff_prefix]

/-- C4: a route matches exactly when its method list is empty or contains
the request method up to ASCII case, and its pattern matches the path under
the three pattern forms of the specification; and the proxy dispatches to
the first matching route in definition order. -/
theorem route_matching_characterization
    (r : ProxyRoute) (path method : Str) (routes : List ProxyRoute) (rt : ProxyRoute) :
    (ProxyRoute.matches r path method = true ↔
      (specMethodOk r.methods method ∧ specPatternMatches r.path_pattern path)) ∧
    (findMatchingRoute routes path method = some rt ↔
      ∃ l1 l2, routes = l1 ++ rt :: l2 ∧ ProxyRoute.matches rt path method = true ∧
        ∀ r2 ∈ l1, ProxyRoute.matches r2 path method = false) := by
  constructor
  · unfold ProxyRoute.matches
    rw [← path_matches_iff]
    unfold specMethodOk
    by_cases hemp : r.methods.isEmpty = true
    · have : r.methods = [] := List.isEmpty_iff.mp hemp
      simp [hemp, this]
    · by_cases hany : (r.methods.any (fun m => eqIgnoreAsciiCase m method)) = true
      · have hm : ∃ m ∈ r.methods, m.map asciiLowerChar = method.map asciiLowerChar := by
          obtain ⟨m, hm1, hm2⟩ := List.any_eq_true.mp hany
          exact ⟨m, hm1, (eqIgnoreAsciiCase_iff m method).mp hm2⟩
        simp [hemp, hany, hm]
      · have hne : r.methods ≠ [] := fun h => hemp (by simp [h])
        have hnm : ¬ ∃ m ∈ r.methods, m.map asciiLowerChar = method.map asciiLowerChar := by
          intro ⟨m, hm1, hm2⟩
          exact hany (List.any_eq_true.mpr ⟨m, hm1, (eqIgnoreAsciiCase_iff m method).mpr hm2⟩)
        simp [hemp, hany, hne, hnm]
  · exact find?_eq_some_first _ routes rt

theorem stripPre_of_isPre : ∀ (a b : Str), a <+: b → stripPre a b = some (b.drop a.length)
  | [], _, _ => by simp [stripPre]
  | x :: xs, [], h => by
    obtain ⟨t, ht⟩ := h
    cases ht
  | x :: xs, y :: ys, h => by
    obtain ⟨t, ht⟩ := h
    injection ht with h1 h2
    subst h1
    simp only [stripPre, if_pos rfl, List.length_cons, List.drop_succ_cons]
    exact stripPre_of_isPre xs ys ⟨t, h2⟩

/-- C2 counterexample: for the plain pattern `/api` with strip_prefix set,
the matched path `/api/users` is rewritten to `/api/users` (no stripping),
not `/users` as the claim's symmetric reading demands. -/
theorem strip_plain_pattern_counterexample :
    path_matches
      { name := none, path_pattern := ("/api".toList), target := ("http://t".toList),
        stripPfx := true, methods := [], api_key_selector := none, headers := [],
        description := none } ("/api/users".toList) = true ∧
    get_target_url
      { name := none, path_pattern := ("/api".toList), target := ("http://t".toList),
        stripPfx := true, methods := [], api_key_selector := none, headers := [],
        description := none } ("/api/users".toList) none = ("http://t/api/users".toList) ∧
    ("http://t/api/users".toList) ≠ ("http://t/users".toList) :=
  ⟨by decide, by decide, by decide⟩

/-- The amended stripping rule: the matched prefix is removed only for
patterns ending in slash-star (prefix `pattern[:-2]`) or slash (prefix
`pattern[:-1]`); any other pattern leaves the path unchanged; an empty
remainder becomes a single slash. -/
def stripAmended (pattern path : Str) : Str :=
  if endsWithSlashStar pattern then
    let rem := path.drop (pattern.length - 2)
    if rem = [] ∨ rem = ['/'] then ['/'] else rem
  else if endsWithSlash pattern then
    let rem := path.drop (pattern.length - 1)
    if rem = [] then ['/'] else rem
  else path

/-- Ensuring a leading slash on the rewritten path component. -/
def ensureLeadSlash (p : Str) : Str :=
  match p with
  | '/' :: _ => p
  | _ => '/' :: p

/-- The query tail of the rewritten URL: `?q` when the forwarded query is
present and nonempty, nothing otherwise. -/
def queryTail (q : Option Str) : Str :=
  match q with
  | some s => if s = [] then [] else '?' :: s
  | none => []

theorem stripPathPfx_eq_amended (r : ProxyRoute) (path : Str)
    (hmatch : path_matches r path = true) :
    stripPathPfx r path = stripAmended r.path_pattern path := by
  unfold stripPathPfx stripAmended
  by_cases h1 : endsWithSlashStar r.path_pattern = true
  · simp only [h1, if_true]
    have hspec := (path_matches_iff r path).mp hmatch
    unfold specPatternMatches at hspec
    rw [if_pos h1] at hspec
    have hpre : r.path_pattern.take (r.path_pattern.length - 2) <+: path := by
      rcases hspec with h | h
      · rw [h]
      · exact (List.prefix_append _ _).trans h
    rw [stripPre_of_isPre _ _ hpre, List.length_take,
      Nat.min_eq_left (Nat.sub_le _ _)]
  · by_cases h2 : endsWithSlash r.path_pattern = true
    · simp only [h1, h2, if_true, if_false, Bool.false_eq_true]
      have hspec := (path_matches_iff r path).mp hmatch
      unfold specPatternMatches at hspec
      rw [if_neg h1, if_pos h2] at hspec
      have hpre : r.path_pattern.take (r.path_pattern.length - 1) <+: path := by
        rcases hspec with h | h | h
        · rw [h]
        · rw [h]; exact List.take_prefix _ _
        · exact (List.take_prefix _ _).trans h
      rw [stripPre_of_isPre _ _ hpre, List.length_take,
        Nat.min_eq_left (Nat.sub_le _ _)]
    · simp only [h1, h2, if_false, Bool.false_eq_true]

/-- C2 (amended): for strip-prefix routes and matched paths, the rewritten
URL is the target with trailing slashes trimmed, followed by the stripped
path (stripping applies only to the slash-star and trailing-slash pattern
forms; plain patterns keep the full path) with a leading slash ensured,
followed by the forwarded query when nonempty. -/
theorem get_target_url_amended (r : ProxyRoute) (path : Str) (q : Option Str)
    (hstrip : r.stripPfx = true) (hmatch : path_matches r path = true) :
    get_target_url r path q =
      trimEndSlashes r.target ++ ensureLeadSlash (stripAmended r.path_pattern path)
        ++ queryTail q := by
  unfold get_target_url
  rw [hstrip]
  simp only [if_true]
  rw [stripPathPfx_eq_amended r path hmatch]
  have hens : (match stripAmended r.path_pattern path with
      | '/' :: _ => stripAmended r.path_pattern path
      | _ => '/' :: stripAmended r.path_pattern path)
      = ensureLeadSlash (stripAmended r.path_pattern path) := rfl
  rw [hens]
  cases q with
  | none => simp [queryTail]
  | some s =>
    cases s with
    | nil => simp [queryTail]
    | cons c cs => simp [queryTail]

/-- Witness for the amended C2 theorem, at the specification's literal
strip-prefix scenario. -/
theorem get_target_url_amended_witness :
    get_target_url
      { name := none, path_pattern := ("/api/*".toList), target := ("http://u:9/".toList),
        stripPfx := true, methods := [], api_key_selector := none, headers := [],
        description := none } ("/api/users/42".toList) (some ("page=1".toList))
      = ("http://u:9/users/42?page=1".toList) :=
  (get_target_url_amended _ _ _ rfl (by decide)).trans (by decide)

/-!
Query-string handling, from `extract_api_key_pool_from_query` in
`src/proxy/mod.rs`.  URL decoding models the `percent_encoding` crate:
percent-decode the UTF-8 bytes of the value, then decode the byte sequence
back to characters, emitting U+FFFD for invalid sequences
(`decode_utf8_lossy`).  The two byte-stream decoders consume at least one
byte per step; they are written with an explicit fuel argument (the input
length) so that they are structurally recursive.
-/

/-- The literal string `api_key_pool`. -/
def apiKeyPoolStr : Str := "api_key_pool".toList

/-- UTF-8 encoding of one character, as byte values. -/
def utf8EncodeChar (c : Char) : List Nat :=
  let n := c.toNat
  if n < 128 then [n]
  else if n < 2048 then [192 + n / 64, 128 + n % 64]
  else if n < 65536 then [224 + n / 4096, 128 + (n / 64) % 64, 128 + n % 64]
  else [240 + n / 262144, 128 + (n / 4096) % 64, 128 + (n / 64) % 64, 128 + n % 64]

/-- UTF-8 encoding of a string, as byte values. -/
def utf8Encode (s : Str) : List Nat :=
  (s.map utf8EncodeChar).flatten

/-- The numeric value of one hexadecimal digit byte, if any. -/
def hexDigitVal (b : Nat) : Option Nat :=
  if 48 ≤ b ∧ b ≤ 57 then some (b - 48)
  else if 97 ≤ b ∧ b ≤ 102 then some (b - 87)
  else if 65 ≤ b ∧ b ≤ 70 then some (b - 55)
  else none

/-- Percent-decoding of a byte sequence (byte 37 is the percent sign); a
percent sign not followed by two hexadecimal digits passes through. -/
def pctDecodeBytesAux : Nat → List Nat → List Nat
  | 0, l => l
  | _ + 1, [] => []
  | fuel + 1, 37 :: a :: b :: rest2 =>
    (match hexDigitVal a, hexDigitVal b with
     | some ha, some hb => (16 * ha + hb) :: pctDecodeBytesAux fuel rest2
     | _, _ => 37 :: pctDecodeBytesAux fuel (a :: b :: rest2))
  | fuel + 1, b :: rest => b :: pctDecodeBytesAux fuel rest

/-- Percent-decoding, with enough fuel for the whole input. -/
def pctDecodeBytes (l : List Nat) : List Nat :=
  pctDecodeBytesAux l.length l

/-- The Unicode replacement character U+FFFD. -/
def replChar : Char := Char.ofNat 65533

/-- Whether a byte is a UTF-8 continuation byte. -/
def isCont (b : Nat) : Bool := 128 ≤ b && b < 192

/-- Lossy UTF-8 decoding of a byte sequence: invalid sequences become the
replacement character (a model of Rust `String::from_utf8_lossy`). -/
def utf8LossyDecodeAux : Nat → List Nat → Str
  | 0, _ => []
  | _ + 1, [] => []
  | fuel + 1, b :: rest =>
    if b < 128 then Char.ofNat b :: utf8LossyDecodeAux fuel rest
    else if b < 192 then replChar :: utf8LossyDecodeAux fuel rest
    else if b < 224 then
      match rest with
      | c :: rest2 =>
        if isCont c ∧ 128 ≤ (b - 192) * 64 + (c - 128) then
          Char.ofNat ((b - 192) * 64 + (c - 128)) :: utf8LossyDecodeAux fuel rest2
        else replChar :: utf8LossyDecodeAux fuel (c :: rest2)
      | [] => [replChar]
    else if b < 240 then
      match rest with
      | c :: d :: rest2 =>
        if isCont c ∧ isCont d ∧ 2048 ≤ (b - 224) * 4096 + (c - 128) * 64 + (d - 128) ∧
            ¬ (55296 ≤ (b - 224) * 4096 + (c - 128) * 64 + (d - 128) ∧
               (b - 224) * 4096 + (c - 128) * 64 + (d - 128) ≤ 57343) then
          Char.ofNat ((b - 224) * 4096 + (c - 128) * 64 + (d - 128)) ::
            utf8LossyDecodeAux fuel rest2
        else replChar :: utf8LossyDecodeAux fuel (c :: d :: rest2)
      | _ => replChar :: utf8LossyDecodeAux fuel rest
    else if b < 248 then
      match rest with
      | c :: d :: e :: rest2 =>
        if isCont c ∧ isCont d ∧ isCont e ∧
            65536 ≤ (b - 240) * 262144 + (c - 128) * 4096 + (d - 128) * 64 + (e - 128) ∧
            (b - 240) * 262144 + (c - 128) * 4096 + (d - 128) * 64 + (e - 128) ≤ 1114111 then
          Char.ofNat ((b - 240) * 262144 + (c - 128) * 4096 + (d - 128) * 64 + (e - 128)) ::
            utf8LossyDecodeAux fuel rest2
        else replChar :: utf8LossyDecodeAux fuel (c :: d :: e :: rest2)
      | _ => replChar :: utf8LossyDecodeAux fuel rest
    else replChar :: utf8LossyDecodeAux fuel rest

/-- Lossy UTF-8 decoding, with enough fuel for the whole input. -/
def utf8LossyDecode (l : List Nat) : Str :=
  utf8LossyDecodeAux l.length l

/-- Rust `percent_decode_str(value).decode_utf8_lossy()`. -/
def urlDecodeLossy (s : Str) : Str :=
  utf8LossyDecode (pctDecodeBytes (utf8Encode s))

/-- Whether a byte is ASCII alphanumeric (kept verbatim by the
`NON_ALPHANUMERIC` percent-encoding set). -/
def isAsciiAlphanumByte (b : Nat) : Bool :=
  (48 ≤ b && b ≤ 57) || (65 ≤ b && b ≤ 90) || (97 ≤ b && b ≤ 122)

/-- Upper-case hexadecimal digit for a value below 16. -/
def hexDigitChar (n : Nat) : Char :=
  if n < 10 then Char.ofNat (48 + n) else Char.ofNat (55 + n)

/-- Rust `utf8_percent_encode(key, NON_ALPHANUMERIC)`: every byte that is
not ASCII alphanumeric becomes `%XX` with upper-case hex digits. -/
def pctEncode (s : Str) : Str :=
  ((utf8Encode s).map (fun b =>
    if isAsciiAlphanumByte b then [Char.ofNat b]
    else ['%', hexDigitChar (b / 16), hexDigitChar (b % 16)])).flatten

/-- The accumulation loop of `extract_api_key_pool_from_query` over the
`&`-separated pieces: later `api_key_pool=value` occurrences win; pieces
with any other key are kept in order. -/
def extractLoop : List Str → Option Str × List Str
  | [] => (none, [])
  | pair :: rest =>
    let r := extractLoop rest
    match splitOnceChar '=' pair with
    | some kv =>
      if kv.1 = apiKeyPoolStr then
        (Option.orElse r.1 (fun _ => some (urlDecodeLossy kv.2)), r.2)
      else (r.1, pair :: r.2)
    | none =>
      if pair = apiKeyPoolStr then (r.1, r.2)
      else (r.1, pair :: r.2)

/-- Rust `extract_api_key_pool_from_query`. -/
def extract_api_key_pool_from_query (query : Option Str) :
    Option Str × Option Str :=
  match query with
  | none => (none, none)
  | some q =>
    if q = [] then (none, none)
    else
      let r := extractLoop (splitOnChar '&' q)
      (r.1, if r.2 = [] then none else some (joinSep '&' r.2))

/-- The key of one `&`-separated query piece: the part before the first
`=`, or the whole piece when it has no `=`. -/
def paramKey (pair : Str) : Str :=
  match splitOnceChar '=' pair with
  | some kv => kv.1
  | none => pair

/-- The `api_key_pool` value carried by one query piece, if any. -/
def poolVal (pair : Str) : Option Str :=
  match splitOnceChar '=' pair with
  | some kv => if kv.1 = apiKeyPoolStr then some kv.2 else none
  | none => none

/-- The forwarded query pieces, in the words of the claim: every piece
whose key is `api_key_pool` is removed, order preserved. -/
def specFilteredParams (q : Str) : List Str :=
  (splitOnChar '&' q).filter (fun p => paramKey p ≠ apiKeyPoolStr)

/-- The raw value of the last `api_key_pool=value` occurrence. -/
def specLastPoolValue (q : Str) : Option Str :=
  ((splitOnChar '&' q).filterMap poolVal).getLast?

theorem getLast?_map_orElse {α β : Type} (f : α → β) (a : α) (l : List α) :
    ((a :: l).getLast?).map f = (((l.getLast?).map f).orElse (fun _ => some (f a))) := by
  cases l with
  | nil => rfl
  | cons b bs =>
    rw [List.getLast?_cons_cons]
    have hne : (b :: bs).getLast? ≠ none := by
      intro h
      exact (List.cons_ne_nil b bs) (List.getLast?_eq_none_iff.mp h)
    cases hx : (b :: bs).getLast? with
    | none => exact absurd hx hne
    | some x => rfl

theorem extractLoop_spec (pairs : List Str) :
    extractLoop pairs =
      (((pairs.filterMap poolVal).getLast?).map urlDecodeLossy,
       pairs.filter (fun p => paramKey p ≠ apiKeyPoolStr)) := by
  induction pairs with
  | nil => rfl
  | cons pair rest ih =>
    cases hsp : splitOnceChar '=' pair with
    | some kv =>
      by_cases hk : kv.1 = apiKeyPoolStr
      · have hpv : poolVal pair = some kv.2 := by simp [poolVal, hsp, hk]
        have hpk : paramKey pair = apiKeyPoolStr := by simp [paramKey, hsp, hk]
        simp only [extractLoop, hsp, if_pos hk, ih, List.filterMap_cons, hpv,
          List.filter_cons, hpk, getLast?_map_orElse]
        simp
      · have hpv : poolVal pair = none := by simp [poolVal, hsp, hk]
        have hpk : paramKey pair = kv.1 := by simp [paramKey, hsp]
        simp only [extractLoop, hsp, if_neg hk, ih, List.filterMap_cons, hpv,
          List.filter_cons, hpk]
        simp [hk]
    | none =>
      have hpv : poolVal pair = none := by simp [poolVal, hsp]
      have hpk : paramKey pair = pair := by simp [paramKey, hsp]
      by_cases hp : pair = apiKeyPoolStr
      · simp only [extractLoop, hsp, if_pos hp, ih, List.filterMap_cons, hpv,
          List.filter_cons, hpk]
        simp [hp]
      · simp only [extractLoop, hsp, if_neg hp, ih, List.filterMap_cons, hpv,
          List.filter_cons, hpk]
        simp [hp]

/-- C5 (amended): for every nonempty incoming query string, the forwarded
query is the original with every `api_key_pool` piece removed (both
`key=value` pieces and value-less pieces), order preserved; the pool
override is the URL-decoded value of the last `api_key_pool=value`
occurrence; and no piece of the forwarded query has key `api_key_pool`.
(The parameter can reappear downstream only as the injected credential
parameter when a resolved pool's `query_param_name` is itself the string
`api_key_pool`; see the counterexample.) -/
theorem extract_query_amended (q : Str) (hq : q ≠ []) :
    extract_api_key_pool_from_query (some q) =
      ((specLastPoolValue q).map urlDecodeLossy,
       if specFilteredParams q = [] then none
       else some (joinSep '&' (specFilteredParams q))) ∧
    ∀ p ∈ specFilteredParams q, paramKey p ≠ apiKeyPoolStr := by
  constructor
  · show (if q = [] then (none, none)
        else
          let r := extractLoop (splitOnChar '&' q)
          (r.1, if r.2 = [] then none else some (joinSep '&' r.2))) = _
    rw [if_neg hq]
    rw [show (let r := extractLoop (splitOnChar '&' q)
          (r.1, if r.2 = [] then none else some (joinSep '&' r.2)))
        = ((extractLoop (splitOnChar '&' q)).1,
           if (extractLoop (splitOnChar '&' q)).2 = [] then none
           else some (joinSep '&' (extractLoop (splitOnChar '&' q)).2)) from rfl]
    rw [extractLoop_spec]
    rfl
  · intro p hp
    have h2 := (List.mem_filter.mp hp).2
    simpa using h2

/-- Witness for the amended C5 theorem: repeated and value-less
`api_key_pool` occurrences; the last `=value` occurrence wins, URL-decoded. -/
theorem extract_query_amended_witness :
    extract_api_key_pool_from_query
      (some ("page=1&api_key_pool=a&flag&api_key_pool=pool%201&api_key_pool".toList)) =
      (some ("pool 1".toList), some ("page=1&flag".toList)) :=
  ((extract_query_amended
    ("page=1&api_key_pool=a&flag&api_key_pool=pool%201&api_key_pool".toList)
    (by decide)).1).trans (by decide)

/-!
The forward path of `ProxyService::forward` (`src/proxy/mod.rs`).  The
model covers the deterministic request-rewriting part: route resolution,
pool-override extraction, selector resolution, key pick, target URL
construction with optional query-parameter injection, and header
construction.  Reading the body and the upstream round trip are I/O; the
upstream status is an input of the model, and the metric events recorded
by `forward` are returned explicitly.  The selector's counter update is
shared state across requests and is not threaded through this
single-request view; the random draw of the selector appears as the
explicit `rand` argument.
-/

/-- An incoming request, as `forward` sees it. -/
structure RequestModel where
  method : Str
  path : Str
  query : Option Str
  headers : List (Str × Str)
deriving DecidableEq

/-- Selector resolution of `forward`: the query-parameter override takes
priority and falls back to the route's configured selector. -/
def resolveSelector (selectors : List (Str × ApiKeySelector))
    (overr : Option Str) (routeSel : Option ApiKeySelector) :
    Option ApiKeySelector :=
  (overr.bind (fun n => assocLookup selectors n)).orElse (fun _ => routeSel)

/-- The target URL built by `forward`: the rewritten URL of the route,
with `{query_param_name}={percent_encoded(key)}` appended when the
resolved pool injects by query parameter and a key was picked. -/
def buildTargetUrl (r : ProxyRoute) (path : Str) (filteredQuery : Option Str)
    (sel : Option ApiKeySelector) (key : Option Str) : Str :=
  let base := get_target_url r path filteredQuery
  match sel, key with
  | some s, some k =>
    (match s.query_param_name with
     | some qpn =>
       if base.contains '?' then base ++ '&' :: (qpn ++ '=' :: pctEncode k)
       else base ++ '?' :: (qpn ++ '=' :: pctEncode k)
     | none => base)
  | _, _ => base

/-- The hop-by-hop header names of `is_hop_by_hop_header` (including
`host`). -/
def hopByHopNames : List Str :=
  [("connection".toList), ("keep-alive".toList), ("proxy-authenticate".toList),
   ("proxy-authorization".toList), ("te".toList), ("trailers".toList),
   ("transfer-encoding".toList), ("upgrade".toList), ("host".toList)]

/-- Rust `is_hop_by_hop_header` (the names are ASCII, so the source's
`to_lowercase` is ASCII lower-casing here). -/
def is_hop_by_hop_header (name : Str) : Bool :=
  hopByHopNames.contains (name.map asciiLowerChar)

/-- Rust `extract_host_from_url`, modelling the `http::Uri` authority of
an absolute `http`/`https` URL: the part between the scheme and the first
`/`, `?` or `#`. -/
def extract_host_from_url (url : Str) : Option Str :=
  let rest? :=
    match stripPre ("http://".toList) url with
    | some r => some r
    | none => stripPre ("https://".toList) url
  match rest? with
  | some r =>
    let auth := r.takeWhile (fun c => !(c == '/' || c == '?' || c == '#'))
    if auth = [] then none else some auth
  | none => none

/-- Header-map removal; header names compare ASCII case-insensitively
(`http::HeaderMap` keeps names lower-cased). -/
def headersRemove (name : Str) (hs : List (Str × Str)) : List (Str × Str) :=
  hs.filter (fun h => h.1.map asciiLowerChar ≠ name.map asciiLowerChar)

/-- Header-map insert (`HeaderMap::insert` replaces every value of the
name). -/
def headersUpsert (hs : List (Str × Str)) (name value : Str) :
    List (Str × Str) :=
  headersRemove name hs ++ [(name, value)]

/-- Header-map lookup by name, ASCII case-insensitive. -/
def headersGet (hs : List (Str × Str)) (name : Str) : Option Str :=
  (hs.find? (fun h => h.1.map asciiLowerChar = name.map asciiLowerChar)).map
    (fun h => h.2)

/-- A model of `http::HeaderName` validity (the token characters; the
apostrophe and backtick token characters are omitted from the model). -/
def validHeaderNameChar (c : Char) : Bool :=
  c.isAlphanum ||
    (c ∈ ['-', '_', '.', '!', '#', '$', '%', '&', '*', '+', '^', '|', '~'])

/-- A model of `HeaderName::parse` success. -/
def validHeaderName (n : Str) : Bool :=
  !n.isEmpty && n.all validHeaderNameChar

/-- A model of `HeaderValue::parse` success: tab or any byte from 32
upward except delete. -/
def validHeaderValue (v : Str) : Bool :=
  v.all (fun c => c.toNat = 9 || (decide (32 ≤ c.toNat) && c.toNat ≠ 127))

/-- The header set built by `forward`: copy minus hop-by-hop, `Host` from
the target URL, the route's static headers (skipping unparsable ones), and
the API key as header only when the pool has no `query_param_name`. -/
def buildHeaders (r : ProxyRoute) (reqHeaders : List (Str × Str))
    (targetUrl : Str) (sel : Option ApiKeySelector) (key : Option Str) :
    List (Str × Str) :=
  let copied := reqHeaders.filter (fun h => !is_hop_by_hop_header h.1)
  let withHost :=
    match extract_host_from_url targetUrl with
    | some hostVal => headersUpsert copied ("host".toList) hostVal
    | none => copied
  let withCustom := r.headers.foldl (fun acc kv =>
    if validHeaderName kv.1 && validHeaderValue kv.2 then
      headersUpsert acc kv.1 kv.2
    else acc) withHost
  match sel with
  | some s =>
    (match s.query_param_name with
     | none =>
       (match key with
        | some k =>
          if validHeaderName s.header_name && validHeaderValue k then
            headersUpsert withCustom s.header_name k
          else withCustom
        | none => withCustom)
     | some _ => withCustom)
  | none => withCustom

/-- The metric events `forward` can record. -/
inductive MetricEvent where
  | requestRec (method : Str) (path : Str) (status : Nat)
  | apiKeyUsage (key : Str) (route : Str)
deriving DecidableEq

/-- The observable outcome of `forward` in this model. -/
inductive ForwardOutcome where
  | notFound (status : Nat) (message : Str) (events : List MetricEvent)
  | forwarded (url : Str) (headers : List (Str × Str))
      (events : List MetricEvent)
deriving DecidableEq

/-- The events recorded by an outcome. -/
def eventsOf : ForwardOutcome → List MetricEvent
  | ForwardOutcome.notFound _ _ ev => ev
  | ForwardOutcome.forwarded _ _ ev => ev

/-- Whether a metric event is an `api_key_usage_total` increment. -/
def isApiKeyUsageEvent : MetricEvent → Bool
  | MetricEvent.apiKeyUsage _ _ => true
  | _ => false

/-- Rust `ProxyService::forward` (deterministic rewriting part; see the
section comment). -/
def forward (routes : List ProxyRoute)
    (selectors : List (Str × ApiKeySelector)) (req : RequestModel)
    (rand : Nat) (upstreamStatus : Nat) : ForwardOutcome :=
  match findMatchingRoute routes req.path req.method with
  | none =>
    ForwardOutcome.notFound 404 ("No matching route found".toList)
      [MetricEvent.requestRec req.method req.path 404]
  | some r =>
    let e := extract_api_key_pool_from_query req.query
    let sel := resolveSelector selectors e.1 r.api_key_selector
    let key := sel.bind (fun s => (getKey s rand).1)
    let url := buildTargetUrl r req.path e.2 sel key
    let hdrs := buildHeaders r req.headers url sel key
    ForwardOutcome.forwarded url hdrs
      [MetricEvent.requestRec req.method req.path upstreamStatus]

/-- The forwarded URL of an outcome (empty for a 404). -/
def urlOf : ForwardOutcome → Str
  | ForwardOutcome.forwarded url _ _ => url
  | ForwardOutcome.notFound _ _ _ => []

/-- A pool used by the C3 evaluation: one enabled key `K1`, header
injection. -/
def selC3 : ApiKeySelector := ApiKeySelector.new
  { keys := [{ key := ("K1".toList), name := some ("lbl".toList), weight := 1,
               enabled := true }],
    strategy := ApiKeyStrategy.roundRobin,
    header_name := ("X-K".toList), query_param_name := none }

/-- The route used by the C3 evaluation. -/
def routeC3 : ProxyRoute :=
  { name := some ("r1".toList), path_pattern := ("/api/*".toList),
    target := ("http://t".toList), stripPfx := true, methods := [],
    api_key_selector := some selC3, headers := [], description := none }

/-- The request used by the C3 evaluation. -/
def reqC3 : RequestModel :=
  { method := ("GET".toList), path := ("/api/x".toList), query := none,
    headers := [] }

/-- C3: evaluation at the failing input.  The route's pool is resolved and
a key is picked (it is injected as the `X-K` header of the forwarded
request), yet the events recorded by `forward` contain no
`api_key_usage_total` increment: only the request counter is recorded.
`GatewayMetrics::record_api_key_usage` exists and is registered, but
`ProxyService::forward` never calls it. -/
theorem forward_records_no_api_key_usage :
    resolveSelector [] (extract_api_key_pool_from_query reqC3.query).1
      routeC3.api_key_selector = some selC3 ∧
    (getKey selC3 0).1 = some ("K1".toList) ∧
    (match forward [routeC3] [] reqC3 0 200 with
     | ForwardOutcome.forwarded _ hdrs _ => headersGet hdrs ("X-K".toList)
     | _ => none) = some ("K1".toList) ∧
    (eventsOf (forward [routeC3] [] reqC3 0 200)).filter isApiKeyUsageEvent = [] ∧
    eventsOf (forward [routeC3] [] reqC3 0 200) =
      [MetricEvent.requestRec ("GET".toList) ("/api/x".toList) 200] := by
  decide

/-- A pool whose `query_param_name` is literally `api_key_pool`, used by
the C5 counterexample. -/
def selC5 : ApiKeySelector := ApiKeySelector.new
  { keys := [{ key := ("K".toList), name := none, weight := 1, enabled := true }],
    strategy := ApiKeyStrategy.roundRobin,
    header_name := ("X-K".toList), query_param_name := some apiKeyPoolStr }

/-- The route used by the C5 counterexample. -/
def routeC5 : ProxyRoute :=
  { name := none, path_pattern := ("/x".toList), target := ("http://t".toList),
    stripPfx := false, methods := [], api_key_selector := some selC5,
    headers := [], description := none }

/-- The request used by the C5 counterexample. -/
def reqC5 : RequestModel :=
  { method := ("GET".toList), path := ("/x".toList),
    query := some ("a=1&api_key_pool=zzz".toList), headers := [] }

/-- C5 counterexample: when the resolved pool injects its key under the
query-parameter name `api_key_pool`, the forwarded URL does contain an
`api_key_pool` parameter (the injected credential), so the claim's
"never appears in the forwarded URL" fails as stated. -/
theorem api_key_pool_reappears_counterexample :
    urlOf (forward [routeC5] [] reqC5 0 200) =
      ("http://t/x?a=1&api_key_pool=K".toList) ∧
    ((splitOnceChar '?' (urlOf (forward [routeC5] [] reqC5 0 200))).map
      (fun qs => (splitOnChar '&' qs.2).map paramKey)) =
      some [("a".toList), apiKeyPoolStr] := by
  decide

theorem stripPre_eq_some : ∀ (a b c : Str), stripPre a b = some c → b = a ++ c
  | [], b, c, h => by
    simp only [stripPre, Option.some.injEq] at h
    simp [h]
  | x :: xs, [], c, h => by
    simp [stripPre] at h
  | x :: xs, y :: ys, c, h => by
    by_cases hxy : x = y
    · simp only [stripPre, if_pos hxy] at h
      have hrec := stripPre_eq_some xs ys c h
      rw [List.cons_append, ← hxy, hrec]
    · simp only [stripPre, if_neg hxy] at h
      exact absurd h (by simp)

theorem mem_stripPathPfx (r : ProxyRoute) (path : Str) (x : Char)
    (hx : x ∈ stripPathPfx r path) : x ∈ path ∨ x = '/' := by
  unfold stripPathPfx at hx
  by_cases h1 : endsWithSlashStar r.path_pattern = true
  · rw [if_pos h1] at hx
    cases hsp : stripPre (r.path_pattern.take (r.path_pattern.length - 2)) path with
    | none =>
      simp only [hsp] at hx
      exact Or.inl hx
    | some rem =>
      simp only [hsp] at hx
      by_cases hrem : rem = [] ∨ rem = ['/']
      · rw [if_pos hrem] at hx
        simp at hx
        exact Or.inr hx
      · rw [if_neg hrem] at hx
        refine Or.inl ?_
        rw [stripPre_eq_some _ _ _ hsp]
        exact List.mem_append_right _ hx
  · rw [if_neg h1] at hx
    by_cases h2 : endsWithSlash r.path_pattern = true
    · rw [if_pos h2] at hx
      cases hsp : stripPre (r.path_pattern.take (r.path_pattern.length - 1)) path with
      | none =>
        simp only [hsp] at hx
        exact Or.inl hx
      | some rem =>
        simp only [hsp] at hx
        by_cases hrem : rem = []
        · rw [if_pos hrem] at hx
          simp at hx
          exact Or.inr hx
        · rw [if_neg hrem] at hx
          refine Or.inl ?_
          rw [stripPre_eq_some _ _ _ hsp]
          exact List.mem_append_right _ hx
    · rw [if_neg h2] at hx
      exact Or.inl hx

theorem mem_trimEndSlashes (s : Str) (x : Char) (hx : x ∈ trimEndSlashes s) :
    x ∈ s := by
  unfold trimEndSlashes at hx
  rw [List.mem_reverse] at hx
  have hsub := List.dropWhile_sublist (l := s.reverse) (p := fun c => c = '/')
  have := hsub.mem hx
  exact List.mem_reverse.mp this

theorem mem_ensureLeadSlash (p : Str) (x : Char) (hx : x ∈ ensureLeadSlash p) :
    x ∈ p ∨ x = '/' := by
  unfold ensureLeadSlash at hx
  split at hx
  · exact Or.inl hx
  · rcases List.mem_cons.mp hx with h | h
    · exact Or.inr h
    · exact Or.inl h

theorem contains_append_q (base pp : Str) (q : Option Str)
    (hb : '?' ∉ base) (hp : '?' ∉ pp) :
    ((match q with
      | some s => if !s.isEmpty then base ++ pp ++ '?' :: s else base ++ pp
      | none => base ++ pp).contains '?') =
      (match q with | some s => !s.isEmpty | none => false) := by
  cases q with
  | none => simp [hb, hp]
  | some s =>
    cases s with
    | nil => simp [hb, hp]
    | cons a as2 => simp [hb, hp]

theorem get_target_url_query_mark (r : ProxyRoute) (path : Str) (q : Option Str)
    (hT : '?' ∉ r.target) (hP : '?' ∉ path) :
    ((get_target_url r path q).contains '?') =
      (match q with | some s => !s.isEmpty | none => false) := by
  have htp : '?' ∉ (if r.stripPfx then stripPathPfx r path else path) := by
    cases hs : r.stripPfx with
    | true =>
      rw [if_pos rfl]
      intro hmem
      rcases mem_stripPathPfx r path _ hmem with h | h
      · exact hP h
      · exact absurd h (by decide)
    | false =>
      rw [if_neg (by simp)]
      exact hP
  have hb : '?' ∉ trimEndSlashes r.target := fun h => hT (mem_trimEndSlashes _ _ h)
  have hpp : '?' ∉ ensureLeadSlash (if r.stripPfx then stripPathPfx r path else path) := by
    intro hmem
    rcases mem_ensureLeadSlash _ _ hmem with h | h
    · exact htp h
    · exact absurd h (by decide)
  exact contains_append_q _ _ q hb hpp

/-- C6: when a pool is resolved and a key is picked, a pool with
`query_param_name` set gets `{query_param_name}={percent_encoded(key)}`
appended to the URL — with `&` when other query parameters remain and `?`
otherwise — and the headers are exactly those built without any key; a
pool without `query_param_name` leaves the URL unchanged and upserts the
key verbatim as the header named `header_name`.  The hypotheses state the
side conditions of the source: the target and path carry no `?` of their
own, the forwarded query is never the empty string (the extraction returns
`None` instead), and the header name and key parse as header name and
value. -/
theorem key_injection_characterization (r : ProxyRoute) (s : ApiKeySelector)
    (k : Str) (path : Str) (fq : Option Str) (reqHeaders : List (Str × Str))
    (url : Str)
    (hT : '?' ∉ r.target) (hP : '?' ∉ path)
    (hfq : fq ≠ some [])
    (hname : validHeaderName s.header_name = true)
    (hval : validHeaderValue k = true) :
    buildTargetUrl r path fq (some s) (some k) =
      (match s.query_param_name with
       | some qpn =>
         get_target_url r path fq ++
           (if fq.isSome then '&' else '?') :: (qpn ++ '=' :: pctEncode k)
       | none => get_target_url r path fq) ∧
    buildHeaders r reqHeaders url (some s) (some k) =
      (match s.query_param_name with
       | some _ => buildHeaders r reqHeaders url none none
       | none =>
         headersUpsert (buildHeaders r reqHeaders url none none) s.header_name k) := by
  constructor
  · unfold buildTargetUrl
    cases hq : s.query_param_name with
    | some qpn =>
      have hc := get_target_url_query_mark r path fq hT hP
      cases fq with
      | none =>
        simp only [hq] at hc ⊢
        rw [hc]
        simp
      | some f =>
        have hf : f ≠ [] := fun h => hfq (by rw [h])
        have hft : f.isEmpty = false := by
          cases f with
          | nil => exact absurd rfl hf
          | cons a as2 => rfl
        simp only [hq, hft, Bool.not_false] at hc ⊢
        rw [hc]
        simp
    | none =>
      simp only [hq]
  · unfold buildHeaders
    cases hq : s.query_param_name with
    | some qpn =>
      simp only [hq]
    | none =>
      simp only [hq, hname, hval, Bool.and_self, if_true]

/-- A query-parameter pool for the C6 witness. -/
def selW1 : ApiKeySelector := ApiKeySelector.new
  { keys := [{ key := ("s c".toList), name := none, weight := 1, enabled := true }],
    strategy := ApiKeyStrategy.roundRobin, header_name := ("X-K".toList),
    query_param_name := some ("api_key".toList) }

/-- A header pool for the C6 witness. -/
def selW2 : ApiKeySelector := ApiKeySelector.new
  { keys := [{ key := ("k1".toList), name := none, weight := 1, enabled := true }],
    strategy := ApiKeyStrategy.roundRobin, header_name := ("X-K".toList),
    query_param_name := none }

/-- The route for the C6 witness. -/
def routeW : ProxyRoute :=
  { name := none, path_pattern := ("/x".toList), target := ("http://u".toList),
    stripPfx := false, methods := [], api_key_selector := none, headers := [],
    description := none }

/-- Witness for C6, at the specification's query-injection scenario
(`s c` percent-encodes to `s%20c`) and at a header-injection pool. -/
theorem key_injection_witness :
    buildTargetUrl routeW ("/x".toList) (some ("a=1".toList)) (some selW1)
      (some ("s c".toList)) = ("http://u/x?a=1&api_key=s%20c".toList) ∧
    buildHeaders routeW [] ("http://u/x".toList) (some selW2) (some ("k1".toList)) =
      [(("host".toList), ("u".toList)), (("X-K".toList), ("k1".toList))] :=
  ⟨((key_injection_characterization routeW selW1 ("s c".toList) ("/x".toList)
      (some ("a=1".toList)) [] ("http://u/x".toList) (by decide) (by decide)
      (by decide) (by decide) (by decide)).1).trans (by decide),
   ((key_injection_characterization routeW selW2 ("k1".toList) ("/x".toList)
      none [] ("http://u/x".toList) (by decide) (by decide)
      (by decide) (by decide) (by decide)).2).trans (by decide)⟩

theorem joinSep_splitOnChar (c : Char) (s : Str) :
    joinSep c (splitOnChar c s) = s := by
  induction s with
  | nil => rfl
  | cons x xs ih =>
    by_cases hx : x = c
    · cases hr : splitOnChar c xs with
      | nil => exact absurd hr (splitOnChar_ne_nil c xs)
      | cons s0 rest =>
        simp only [splitOnChar, if_pos hx, hr]
        rw [hr] at ih
        simp only [joinSep, List.nil_append]
        rw [ih, hx]
    · cases hr : splitOnChar c xs with
      | nil => exact absurd hr (splitOnChar_ne_nil c xs)
      | cons s0 rest =>
        simp only [splitOnChar, if_neg hx, hr]
        rw [hr] at ih
        cases rest with
        | nil =>
          simp only [joinSep] at ih ⊢
          rw [ih]
        | cons t rest2 =>
          simp only [joinSep] at ih ⊢
          rw [List.cons_append, ih]

theorem poolVal_eq_none (p : Str) (h : paramKey p ≠ apiKeyPoolStr) :
    poolVal p = none := by
  unfold poolVal
  cases hsp : splitOnceChar '=' p with
  | none => rfl
  | some kv =>
    have hk : paramKey p = kv.1 := by simp [paramKey, hsp]
    show (if kv.1 = apiKeyPoolStr then some kv.2 else none) = none
    rw [if_neg (by rw [← hk]; exact h)]

theorem extract_some_ne_nil (q : Str) (hq : q ≠ []) :
    extract_api_key_pool_from_query (some q) =
      ((extractLoop (splitOnChar '&' q)).1,
       if (extractLoop (splitOnChar '&' q)).2 = [] then none
       else some (joinSep '&' (extractLoop (splitOnChar '&' q)).2)) := by
  show (if q = [] then (none, none) else _) = _
  rw [if_neg hq]

theorem extract_of_filtered (f : Str) (hf : f ≠ [])
    (h : ∀ p ∈ splitOnChar '&' f, paramKey p ≠ apiKeyPoolStr) :
    extract_api_key_pool_from_query (some f) = (none, some f) := by
  rw [extract_some_ne_nil f hf, extractLoop_spec]
  have h1 : (splitOnChar '&' f).filterMap poolVal = [] := by
    rw [List.filterMap_eq_nil_iff]
    intro p hp
    exact poolVal_eq_none p (h p hp)
  have h2 : (splitOnChar '&' f).filter
      (fun p => paramKey p ≠ apiKeyPoolStr) = splitOnChar '&' f := by
    rw [List.filter_eq_self]
    intro p hp
    simpa using h p hp
  rw [h1, h2, if_neg (splitOnChar_ne_nil '&' f), joinSep_splitOnChar]
  rfl

theorem extract_snd_stable (q0 : Option Str) (n : Str) (fq : Option Str)
    (hx : extract_api_key_pool_from_query q0 = (some n, fq))
    (hfq : fq ≠ some []) :
    extract_api_key_pool_from_query fq = (none, fq) := by
  cases q0 with
  | none =>
    have : (none : Option Str) = some n := congrArg Prod.fst hx
    exact absurd this (by simp)
  | some q =>
    by_cases hq : q = []
    · subst hq
      rw [show extract_api_key_pool_from_query (some ([] : Str)) = (none, none) from rfl] at hx
      have : (none : Option Str) = some n := congrArg Prod.fst hx
      exact absurd this (by simp)
    · rw [extract_some_ne_nil q hq, extractLoop_spec] at hx
      have hsnd := congrArg Prod.snd hx
      simp only [] at hsnd
      by_cases hfil : (splitOnChar '&' q).filter
          (fun p => paramKey p ≠ apiKeyPoolStr) = []
      · rw [if_pos hfil] at hsnd
        rw [← hsnd]
        rfl
      · rw [if_neg hfil] at hsnd
        rw [← hsnd]
        have hmem : ∀ p ∈ (splitOnChar '&' q).filter
            (fun p => paramKey p ≠ apiKeyPoolStr), '&' ∉ p := by
          intro p hp
          exact mem_splitOnChar_not_mem '&' q p (List.mem_of_mem_filter hp)
        have hroundtrip := splitOnChar_joinSep '&'
          ((splitOnChar '&' q).filter (fun p => paramKey p ≠ apiKeyPoolStr))
          hfil hmem
        have hjoin_ne : joinSep '&'
            ((splitOnChar '&' q).filter (fun p => paramKey p ≠ apiKeyPoolStr)) ≠ [] := by
          intro hj
          rw [← hsnd] at hfq
          exact hfq (by rw [hj])
        refine extract_of_filtered _ hjoin_ne ?_
        rw [hroundtrip]
        intro p hp
        have := (List.mem_filter.mp hp).2
        simpa using this

/-- C10: when the `api_key_pool` query override names a pool absent from
the selector map, the proxy silently falls back to the route's configured
selector (or to no key at all), the request is still forwarded rather than
rejected, and the unknown parameter is stripped: forwarding the request is
indistinguishable from forwarding the same request with the override
parameter already removed from its query. -/
theorem unknown_pool_override_fallback (routes : List ProxyRoute)
    (selectors : List (Str × ApiKeySelector)) (req : RequestModel)
    (rand upstreamStatus : Nat) (n : Str) (fq : Option Str)
    (hx : extract_api_key_pool_from_query req.query = (some n, fq))
    (hfq : fq ≠ some [])
    (hlook : assocLookup selectors n = none) :
    (∀ rsel, resolveSelector selectors (some n) rsel = rsel) ∧
    forward routes selectors req rand upstreamStatus =
      forward routes selectors { req with query := fq } rand upstreamStatus ∧
    (∀ r, findMatchingRoute routes req.path req.method = some r →
      ∃ url hdrs ev, forward routes selectors req rand upstreamStatus =
        ForwardOutcome.forwarded url hdrs ev) := by
  have hres : ∀ rsel, resolveSelector selectors (some n) rsel = rsel := by
    intro rsel
    unfold resolveSelector
    rw [Option.some_bind, hlook]
    rfl
  have hres0 : ∀ rsel, resolveSelector selectors none rsel = rsel := fun _ => rfl
  have hextract2 := extract_snd_stable req.query n fq hx hfq
  refine ⟨hres, ?_, ?_⟩
  · unfold forward
    cases hfind : findMatchingRoute routes req.path req.method with
    | none => rfl
    | some r =>
      simp only [hx, hextract2, hres, hres0]
  · intro r hr
    unfold forward
    rw [hr]
    exact ⟨_, _, _, rfl⟩

/-- The request with an unknown pool override for the C10 witness. -/
def reqOver : RequestModel :=
  { method := ("GET".toList), path := ("/x".toList),
    query := some ("page=1&api_key_pool=zzz".toList), headers := [] }

/-- Witness for C10: with an empty selector map, the override `zzz` is
unknown; forwarding equals forwarding the stripped request. -/
theorem unknown_pool_override_fallback_witness :
    forward [routeW] [] reqOver 0 200 =
      forward [routeW] [] { reqOver with query := some ("page=1".toList) } 0 200 :=
  (unknown_pool_override_fallback [routeW] [] reqOver 0 200 ("zzz".toList)
    (some ("page=1".toList)) (by decide) (by decide) (by decide)).2.1

/-!
The master access token guard, from `master_access_token_guard` in
`src/main.rs`.  The middleware is layered in front of the whole router, so
it runs before the health, metrics and proxy handlers alike; `dispatch`
stands for the downstream handler.
-/

/-- The header value read by the guard: a missing (or non-string) header
value becomes the empty string (`unwrap_or("")`). -/
def headerValueOrEmpty (hs : List (Str × Str)) (name : Str) : Str :=
  (headersGet hs name).getD []

/-- Rust `master_access_token_guard`, as the pass/reject decision. -/
def guardPasses (cfg : MasterAccessTokenConfig) (req : RequestModel) : Bool :=
  if !cfg.enabled then true
  else cfg.validate_token (headerValueOrEmpty req.headers cfg.header_name)

/-- The guarded router: the guard wraps every endpoint; a rejected request
gets status 401 and the literal body. -/
def handleRequest (cfg : MasterAccessTokenConfig)
    (dispatch : RequestModel → Nat × Str) (req : RequestModel) : Nat × Str :=
  if guardPasses cfg req then dispatch req
  else (401, ("Invalid or missing access token".toList))

/-- C8 counterexample: with the guard enabled and the empty string among
the configured tokens (a configuration `validate` accepts), a request
that carries no access-token header at all passes the guard, although the
claim demands a 401 for every request without a matching header value. -/
theorem guard_missing_header_counterexample :
    guardPasses
      { enabled := true, header_name := ("Authorization".toList), tokens := [[]] }
      { method := ("GET".toList), path := ("/health".toList), query := none,
        headers := [] } = true ∧
    headersGet ([] : List (Str × Str)) ("Authorization".toList) = none ∧
    GatewayConfig.validate
      { server := { name := none, host := ("0.0.0.0".toList), port := 8080,
                    timeout := 30, routes := [] },
        servers := [],
        master_access_token :=
          { enabled := true, header_name := ("Authorization".toList), tokens := [[]] },
        routes := [], api_key_pools := [] } = true := by
  decide

/-- C8 (amended): when the guard is disabled every request passes
unchanged; when enabled, a request passes iff the value of the header
named `header_name` — taken as the empty string when the header is absent
— is a member of `tokens`; every other request receives 401 with body
`Invalid or missing access token`.  The downstream handler is arbitrary,
so this holds uniformly for health, metrics and proxied requests. -/
theorem guard_characterization (cfg : MasterAccessTokenConfig)
    (dispatch : RequestModel → Nat × Str) (req : RequestModel) :
    handleRequest cfg dispatch req =
      if cfg.enabled = false ∨
          (headerValueOrEmpty req.headers cfg.header_name) ∈ cfg.tokens
      then dispatch req
      else (401, ("Invalid or missing access token".toList)) := by
  unfold handleRequest guardPasses MasterAccessTokenConfig.validate_token
  cases he : cfg.enabled with
  | false => simp
  | true =>
    by_cases htok : cfg.tokens.isEmpty = true
    · have htk : cfg.tokens = [] := List.isEmpty_iff.mp htok
      simp [htok, htk]
    · have htokf : cfg.tokens.isEmpty = false := by
        cases hE : cfg.tokens.isEmpty with
        | false => rfl
        | true => exact absurd hE htok
      by_cases hmem : (headerValueOrEmpty req.headers cfg.header_name) ∈ cfg.tokens
      · have hany : cfg.tokens.any
            (fun t => t = headerValueOrEmpty req.headers cfg.header_name) = true :=
          List.any_eq_true.mpr ⟨_, hmem, by simp⟩
        simp [htokf, hany, hmem]
      · have hany : cfg.tokens.any
            (fun t => t = headerValueOrEmpty req.headers cfg.header_name) = false := by
          cases hA : cfg.tokens.any
              (fun t => t = headerValueOrEmpty req.headers cfg.header_name) with
          | false => rfl
          | true =>
            obtain ⟨t, ht, hv⟩ := List.any_eq_true.mp hA
            have htv : t = headerValueOrEmpty req.headers cfg.header_name := by
              simpa using hv
            exact absurd (htv ▸ ht) hmem
        simp [htokf, hany, hmem]

/-- A configuration with two listeners on the same address, for the C1
counterexample. -/
def cfgDup : GatewayConfig :=
  { server := { name := none, host := ("0.0.0.0".toList), port := 8080,
                timeout := 30, routes := [] },
    servers :=
      [{ name := some ("a".toList), host := ("0.0.0.0".toList), port := 8080,
         timeout := 30, routes := [] },
       { name := some ("b".toList), host := ("0.0.0.0".toList), port := 8080,
         timeout := 30, routes := [] }],
    master_access_token :=
      { enabled := false, header_name := ("Authorization".toList), tokens := [] },
    routes := [], api_key_pools := [] }

/-- C1 counterexample: a configuration whose two effective listeners
resolve to the same `host:port` is accepted by `validate`, so the claimed
load-time distinctness invariant is not enforced. -/
theorem duplicate_listener_counterexample :
    GatewayConfig.validate cfgDup = true ∧
    cfgDup.get_servers.map serverAddrFor =
      [("0.0.0.0:8080".toList), ("0.0.0.0:8080".toList)] ∧
    ¬ (cfgDup.get_servers.map serverAddrFor).Nodup := by
  refine ⟨by decide, by decide, ?_⟩
  intro h
  rw [show cfgDup.get_servers.map serverAddrFor =
      [("0.0.0.0:8080".toList), ("0.0.0.0:8080".toList)] from by decide] at h
  exact (List.nodup_cons.mp h).1 (List.mem_singleton.mpr rfl)

theorem validate_pool_refs (cfg : GatewayConfig) :
    cfg.routes.all (fun r =>
      match r.api_key_pool with
      | some pn => cfg.api_key_pools.any (fun p => p.1 = pn)
      | none => true) = true ↔
    ∀ r ∈ cfg.routes, ∀ pn, r.api_key_pool = some pn →
      ∃ p ∈ cfg.api_key_pools, p.1 = pn := by
  rw [List.all_eq_true]
  constructor
  · intro h r hr pn hpn
    have h2 := h r hr
    simp only [hpn] at h2
    obtain ⟨p, hp, he⟩ := List.any_eq_true.mp h2
    exact ⟨p, hp, by simpa using he⟩
  · intro h r hr
    cases hap : r.api_key_pool with
    | none => rfl
    | some pn =>
      obtain ⟨p, hp, he⟩ := h r hr pn hap
      exact List.any_eq_true.mpr ⟨p, hp, by simpa using he⟩

theorem validate_pool_keys (cfg : GatewayConfig) :
    cfg.api_key_pools.all
      (fun p => !(p.2.keys.filter (fun k => k.enabled)).isEmpty) = true ↔
    ∀ p ∈ cfg.api_key_pools, ∃ k ∈ p.2.keys, k.enabled = true := by
  rw [List.all_eq_true]
  constructor
  · intro h p hp
    have h2 := h p hp
    simp only [Bool.not_eq_true'] at h2
    have h3 : (p.2.keys.filter (fun k => k.enabled)) ≠ [] := by
      intro hnil
      rw [hnil] at h2
      simp at h2
    obtain ⟨k, hk⟩ := List.exists_mem_of_ne_nil _ h3
    exact ⟨k, List.mem_of_mem_filter hk, by simpa using List.of_mem_filter hk⟩
  · intro h p hp
    obtain ⟨k, hk, hke⟩ := h p hp
    show (!(p.2.keys.filter (fun k => k.enabled)).isEmpty) = true
    rw [Bool.not_eq_true', List.isEmpty_eq_false]
    intro hnil
    have hmem := List.mem_filter.mpr ⟨hk, hke⟩
    rw [hnil] at hmem
    simp at hmem

theorem validate_server_routes (cfg : GatewayConfig) :
    cfg.servers.all (fun s => s.routes.all (fun rref =>
      cfg.routes.any (fun r => r.name = some rref || r.path = rref))) = true ↔
    ∀ s ∈ cfg.servers, ∀ rr ∈ s.routes,
      ∃ r ∈ cfg.routes, r.name = some rr ∨ r.path = rr := by
  rw [List.all_eq_true]
  constructor
  · intro h s hs rr hrr
    have h2 := h s hs
    rw [List.all_eq_true] at h2
    obtain ⟨r, hr, he⟩ := List.any_eq_true.mp (h2 rr hrr)
    exact ⟨r, hr, by simpa using he⟩
  · intro h s hs
    rw [List.all_eq_true]
    intro rr hrr
    obtain ⟨r, hr, he⟩ := h s hs rr hrr
    exact List.any_eq_true.mpr ⟨r, hr, by simpa using he⟩

theorem validate_master_token (cfg : GatewayConfig) :
    (!(cfg.master_access_token.enabled &&
       cfg.master_access_token.tokens.isEmpty)) = true ↔
    (cfg.master_access_token.enabled = true →
      cfg.master_access_token.tokens ≠ []) := by
  cases he : cfg.master_access_token.enabled with
  | false => simp
  | true => simp [List.isEmpty_iff]

/-- C1 (amended): `validate` accepts exactly the configurations that
satisfy the four checks of the source — every route pool reference
resolves, every pool has an enabled key, every server route reference
resolves, and an enabled master token guard has tokens.  Listener bind
addresses play no role in the characterization: configurations with
duplicate `host:port` tuples are accepted at load time, and the conflict
surfaces only when binding the listeners. -/
theorem validate_characterization (cfg : GatewayConfig) :
    cfg.validate = true ↔
      ((∀ r ∈ cfg.routes, ∀ pn, r.api_key_pool = some pn →
          ∃ p ∈ cfg.api_key_pools, p.1 = pn) ∧
       (∀ p ∈ cfg.api_key_pools, ∃ k ∈ p.2.keys, k.enabled = true) ∧
       (∀ s ∈ cfg.servers, ∀ rr ∈ s.routes,
          ∃ r ∈ cfg.routes, r.name = some rr ∨ r.path = rr) ∧
       (cfg.master_access_token.enabled = true →
          cfg.master_access_token.tokens ≠ [])) := by
  have hb : cfg.validate = true ↔
      ((cfg.routes.all (fun r =>
          match r.api_key_pool with
          | some pn => cfg.api_key_pools.any (fun p => p.1 = pn)
          | none => true) = true) ∧
       (cfg.api_key_pools.all
          (fun p => !(p.2.keys.filter (fun k => k.enabled)).isEmpty) = true) ∧
       (cfg.servers.all (fun s => s.routes.all (fun rref =>
          cfg.routes.any (fun r => r.name = some rref || r.path = rref))) = true) ∧
       ((!(cfg.master_access_token.enabled &&
           cfg.master_access_token.tokens.isEmpty)) = true)) := by
    unfold GatewayConfig.validate
    simp only [Bool.and_eq_true, and_assoc]
  rw [hb, validate_pool_refs, validate_pool_keys, validate_server_routes,
    validate_master_token]
